import Mathlib

/-!
Shallow embedding of the spaced-repetition review scheduler and
progress-gating engine of the `John_english_project` repository
(`app/services/vocabulary_service.py`, `app/services/progress_service.py`,
`app/routes/vocabulary.py`, `app/models/progress.py`, `app/config.py`).

Conventions of the embedding:
* Python `datetime` values are modelled as rational numbers counting days,
  so `timedelta(days=n)` is addition of `n`.
* Python `float` arithmetic is modelled as exact rational arithmetic.
* Python `int(x)` (truncation toward zero) is `pyInt`.
* SQL tables are Lean lists of rows; a `SELECT ... WHERE` is `List.filter`
  in storage order, `ORDER BY` is a stable `mergeSort`, `LIMIT` is
  `List.take`, and a join is a `flatMap` producing the matching pairs.
* `random.shuffle` is an explicit `shuffle` parameter; theorems that need
  it assume it permutes its input.
-/

/-- Python `int()` applied to a rational: truncation toward zero. -/
def pyInt (q : ℚ) : ℤ :=
  if 0 ≤ q then ⌊q⌋ else -⌊-q⌋

/-- Python `round` to the nearest integer, ties to even (banker's rounding). -/
def pyRound (q : ℚ) : ℤ :=
  let f := ⌊q⌋
  let r := q - (f : ℚ)
  if r < 1/2 then f
  else if 1/2 < r then f + 1
  else if f % 2 = 0 then f else f + 1

/-- Python `round(x, 1)`: rounding to one decimal digit. -/
def pyRound1 (q : ℚ) : ℚ :=
  (pyRound (q * 10) : ℚ) / 10

/-- Python `str.upper()` (the level strings are ASCII). -/
def pyUpper (s : String) : String :=
  ⟨s.data.map Char.toUpper⟩

/-- Python `str.lower()` (the level strings are ASCII). -/
def pyLower (s : String) : String :=
  ⟨s.data.map Char.toLower⟩

/-- The configurable thresholds of `app/config.py` (`Settings`). -/
structure Settings where
  GRAMMAR_COMPLETION_THRESHOLD : ℕ
  VOCAB_COMPLETION_THRESHOLD : ℕ
  REQUIRED_CORRECT_ATTEMPTS : ℕ

/-- The default values of `app/config.py`: thresholds 80 / 80, required
correct attempts 3. -/
def defaultSettings : Settings :=
  ⟨80, 80, 3⟩

/-- A row of the `dictionary` table (`app/models/dictionary.py`): the fields
the scheduler reads. Levels are stored lower-case for vocabulary. -/
structure Word where
  id : ℕ
  word : String
  level : String
deriving DecidableEq

/-- A row of the `grammar` table (`app/models/grammar.py`): the fields the
aggregator reads. Levels are stored upper-case for grammar. -/
structure GrammarRule where
  id : String
  level : String
deriving DecidableEq

/-- A row of `user_vocabulary_progress` (`app/models/progress.py`,
`UserVocabularyProgress`). `last_review` / `next_review` are nullable
timestamps, modelled as `Option ℚ` (days). -/
structure VocabRow where
  user_id : ℕ
  word_id : ℕ
  completed : Bool
  attempts : ℕ
  correct_count : ℕ
  last_review : Option ℚ
  next_review : Option ℚ
  interval : ℤ
  ease_factor : ℚ
deriving DecidableEq

/-- A row of `user_grammar_progress` (`app/models/progress.py`,
`UserGrammarProgress`): the fields the aggregator reads. -/
structure GrammarRow where
  user_id : ℕ
  grammar_id : String
  completed : Bool
deriving DecidableEq

/-- The database state seen by the core services. -/
structure DB where
  dict : List Word
  grammar : List GrammarRule
  vocabRows : List VocabRow
  grammarRows : List GrammarRow

/-- The row `update_word_progress` creates when no progress exists yet
(`vocabulary_service.py` lines 134-143): `attempts=0, correct_count=0,
interval=1, ease_factor=2.5`, with the column defaults `completed=False`,
`last_review=None`, `next_review=None`. -/
def initRow (uid wid : ℕ) : VocabRow :=
  { user_id := uid
    word_id := wid
    completed := false
    attempts := 0
    correct_count := 0
    last_review := none
    next_review := none
    interval := 1
    ease_factor := 5/2 }

/-- The in-place mutation `update_word_progress` performs on the (found or
freshly created) progress row (`vocabulary_service.py` lines 145-180):
bump `attempts` and `last_review`; on a correct answer bump the streak,
apply the simplified SM-2 interval rule using the pre-answer interval and
ease factor, raise the ease factor (capped at 2.5) and set `completed`
once the streak reaches the threshold; on an incorrect answer reset the
streak, interval and `completed` and lower the ease factor (floored at
1.3); finally set `next_review` to `now` plus the updated interval. -/
def update_row (s : Settings) (now : ℚ) (is_correct : Bool) (r : VocabRow) : VocabRow :=
  let p := { r with attempts := r.attempts + 1, last_review := some now }
  let p :=
    if is_correct then
      let cc := p.correct_count + 1
      let newInterval : ℤ :=
        if cc = 1 then 1
        else if cc = 2 then 6
        else pyInt ((p.interval : ℚ) * p.ease_factor)
      { p with
        correct_count := cc
        interval := newInterval
        ease_factor := min (5/2 : ℚ) (p.ease_factor + 1/10)
        completed := if s.REQUIRED_CORRECT_ATTEMPTS ≤ cc then true else p.completed }
    else
      { p with
        correct_count := 0
        interval := 1
        completed := false
        ease_factor := max (13/10 : ℚ) (p.ease_factor - 1/5) }
  { p with next_review := some (now + (p.interval : ℚ)) }

/-- Replace the first row satisfying `p` by its image under `f`, leaving the
rest unchanged: the effect of mutating the row found by
`scalar_one_or_none` and committing. -/
def updateFirst (p : VocabRow → Bool) (f : VocabRow → VocabRow) : List VocabRow → List VocabRow
  | [] => []
  | r :: rs => if p r then f r :: rs else r :: updateFirst p f rs

/-- Key predicate for the unique `(user_id, word_id)` progress row. -/
def keyMatch (uid wid : ℕ) (r : VocabRow) : Bool :=
  r.user_id == uid && r.word_id == wid

/-- `update_word_progress` (`vocabulary_service.py` lines 108-182) at the
store level: find the `(user_id, word_id)` row; if absent create the
initial row; apply the SM-2 transition `update_row`; persist. Note that
the word id is never looked up in the dictionary. -/
def update_word_progress (s : Settings) (db : DB) (uid wid : ℕ) (is_correct : Bool) (now : ℚ) : DB :=
  match db.vocabRows.find? (keyMatch uid wid) with
  | some _ =>
      { db with vocabRows := updateFirst (keyMatch uid wid) (update_row s now is_correct) db.vocabRows }
  | none =>
      { db with vocabRows := db.vocabRows ++ [update_row s now is_correct (initRow uid wid)] }

/-- `mark_word_completed` (`progress_service.py` lines 132-158): if no
progress row exists, create one with `attempts=1, completed=True` (all
other columns at their model defaults); otherwise bump `attempts` and set
`completed=True`. -/
def mark_word_completed (db : DB) (uid wid : ℕ) : DB :=
  let bump : VocabRow → VocabRow := fun r => { r with attempts := r.attempts + 1, completed := true }
  match db.vocabRows.find? (keyMatch uid wid) with
  | some _ =>
      { db with vocabRows := updateFirst (keyMatch uid wid) bump db.vocabRows }
  | none =>
      { db with vocabRows := db.vocabRows ++ [{ initRow uid wid with attempts := 1, completed := true }] }

/-- The `/vocabulary/practice/answer` route (`routes/vocabulary.py` lines
168-205): it fetches the word row but never checks that it exists, grades
the answer by string comparison, and calls `update_word_progress`
unconditionally. -/
def practice_answer (s : Settings) (db : DB) (uid wid : ℕ)
    (selected_answer correct_answer : String) (now : ℚ) : DB :=
  let is_correct := selected_answer == correct_answer
  update_word_progress s db uid wid is_correct now

/-- Folding a sequence of answers (each with its own clock reading) through
`update_word_progress`, starting from the lazily created initial state:
the per-row trace of `recordAnswer` calls for one user-word pair. -/
def runAnswers (s : Settings) (answers : List (Bool × ℚ)) : VocabRow :=
  answers.foldl (fun r a => update_row s a.2 a.1 r) (initRow 1 1)

/-- The SQL condition `next_review <= now`: a NULL `next_review` compares
false (the row is not due). -/
def isDueRow (now : ℚ) (r : VocabRow) : Bool :=
  match r.next_review with
  | some t => decide (t ≤ now)
  | none => false

/-- The join of stage 1 of `get_practice_words` (`vocabulary_service.py`
lines 41-56): dictionary rows at the level joined with the user's progress
rows that are due, in storage order. -/
def dueJoin (db : DB) (uid : ℕ) (lvl : String) (now : ℚ) : List (Word × VocabRow) :=
  (db.dict.filter (fun w => w.level == pyLower lvl)).flatMap
    (fun w => (db.vocabRows.filter
        (fun r => r.word_id == w.id && r.user_id == uid && isDueRow now r)).map (fun r => (w, r)))

/-- Comparison for `ORDER BY next_review` over the joined pairs. After the
due filter every `next_review` is non-NULL, so the default 0 is inert. -/
def dueLe (a b : Word × VocabRow) : Bool :=
  decide (a.2.next_review.getD 0 ≤ b.2.next_review.getD 0)

/-- Stage 1 of `get_practice_words`: due words ordered ascending by
`next_review`, limited to `count`. -/
def due_words (db : DB) (uid : ℕ) (lvl : String) (now : ℚ) (count : ℕ) : List Word :=
  (((dueJoin db uid lvl now).mergeSort dueLe).take count).map Prod.fst

/-- The subquery of stage 2 (`vocabulary_service.py` lines 66-70): ids of
all words the user has ever practiced, at any level. -/
def practiced_ids (db : DB) (uid : ℕ) : List ℕ :=
  (db.vocabRows.filter (fun r => r.user_id == uid)).map (fun r => r.word_id)

/-- Comparison for `ORDER BY Dictionary.word`. -/
def wordLe (a b : Word) : Bool :=
  decide (a.word ≤ b.word)

/-- Stage 2 of `get_practice_words` (`vocabulary_service.py` lines 61-84):
words at the level with no progress row for this user, ordered by the word
text, limited to the remaining quota. `id.notin_([])` is `True`, so the
empty-practiced-ids special case coincides with the general one. -/
def new_words (db : DB) (uid : ℕ) (lvl : String) (remaining : ℕ) : List Word :=
  ((db.dict.filter
      (fun w => w.level == pyLower lvl && !((practiced_ids db uid).contains w.id))).mergeSort
    wordLe).take remaining

/-- The fetch of stage 3 (`vocabulary_service.py` lines 91-101): words at
the level not already selected, ordered by the word text, limited to twice
the remaining quota. -/
def backfill_pool (db : DB) (lvl : String) (existing : List ℕ) (limit : ℕ) : List Word :=
  ((db.dict.filter
      (fun w => w.level == pyLower lvl && !(existing.contains w.id))).mergeSort wordLe).take limit

/-- `get_practice_words` (`vocabulary_service.py` lines 14-105): due
reviews first, then never-practiced words, then a shuffled backfill, the
whole batch truncated to `count`. `shuffle` stands for `random.shuffle`. -/
def get_practice_words (db : DB) (uid : ℕ) (lvl : String) (count : ℕ) (now : ℚ)
    (shuffle : List Word → List Word) : List Word :=
  let words := due_words db uid lvl now count
  let words :=
    if words.length < count then
      words ++ new_words db uid lvl (count - words.length)
    else words
  let words :=
    if words.length < count then
      words ++ (shuffle (backfill_pool db lvl (words.map (fun w => w.id))
          ((count - words.length) * 2))).take (count - words.length)
    else words
  words.take count

/-- The fixed level sequence of `progress_service.py` (`LEVELS`). -/
def LEVELS : List String :=
  ["A1", "A2", "B1", "B2", "C1", "C2"]

/-- The percentage computation of `get_level_progress`
(`progress_service.py` lines 60-61): `completed / total * 100` when the
total is positive, 0 otherwise. -/
def pct (completed total : ℕ) : ℚ :=
  if 0 < total then (completed : ℚ) / (total : ℚ) * 100 else 0

/-- `SELECT count(Grammar.id) WHERE level == level.upper()`. -/
def total_grammar (db : DB) (lvl : String) : ℕ :=
  (db.grammar.filter (fun g => g.level == pyUpper lvl)).length

/-- The count of the user's completed grammar rows joined against grammar
rules at the level (`progress_service.py` lines 30-39). -/
def completed_grammar (db : DB) (uid : ℕ) (lvl : String) : ℕ :=
  ((db.grammarRows.filter (fun r => r.user_id == uid && r.completed)).flatMap
    (fun r => db.grammar.filter (fun g => g.id == r.grammar_id && g.level == pyUpper lvl))).length

/-- `SELECT count(Dictionary.id) WHERE level == level.lower()`. -/
def total_words (db : DB) (lvl : String) : ℕ :=
  (db.dict.filter (fun w => w.level == pyLower lvl)).length

/-- The count of the user's completed vocabulary rows joined against words
at the level (`progress_service.py` lines 48-57). -/
def completed_words (db : DB) (uid : ℕ) (lvl : String) : ℕ :=
  ((db.vocabRows.filter (fun r => r.user_id == uid && r.completed)).flatMap
    (fun r => db.dict.filter (fun w => w.id == r.word_id && w.level == pyLower lvl))).length

/-- The dictionary returned by `get_level_progress` (`progress_service.py`
lines 76-86). -/
structure LevelProgress where
  level : String
  total_grammar : ℕ
  completed_grammar : ℕ
  total_words : ℕ
  completed_words : ℕ
  grammar_completion_pct : ℚ
  vocab_completion_pct : ℚ
  can_advance : Bool
  next_level : Option String
deriving DecidableEq

/-- `get_level_progress` (`progress_service.py` lines 16-86): count totals
and completions, form the two percentages (0 on an empty total), compare
them against the thresholds, and look up the next level in `LEVELS` when
advancement is allowed and the level is not the last. The returned
percentage fields are rounded to one decimal as in the source
(`round(pct, 1)`); the threshold comparison uses the unrounded values. -/
def get_level_progress (s : Settings) (db : DB) (uid : ℕ) (lvl : String) : LevelProgress :=
  let tg := total_grammar db lvl
  let cg := completed_grammar db uid lvl
  let tw := total_words db lvl
  let cw := completed_words db uid lvl
  let grammar_pct := pct cg tg
  let vocab_pct := pct cw tw
  let can_advance :=
    decide ((s.GRAMMAR_COMPLETION_THRESHOLD : ℚ) ≤ grammar_pct) &&
    decide ((s.VOCAB_COMPLETION_THRESHOLD : ℚ) ≤ vocab_pct)
  let next_level : Option String :=
    if can_advance then
      if LEVELS.indexOf (pyUpper lvl) + 1 < LEVELS.length then LEVELS[LEVELS.indexOf (pyUpper lvl) + 1]?
      else none
    else none
  { level := pyUpper lvl
    total_grammar := tg
    completed_grammar := cg
    total_words := tw
    completed_words := cw
    grammar_completion_pct := pyRound1 grammar_pct
    vocab_completion_pct := pyRound1 vocab_pct
    can_advance := can_advance
    next_level := next_level }

/-- A word is due for the user: some progress row of the user references it
and its `next_review` has passed. -/
def isDue (db : DB) (uid : ℕ) (now : ℚ) (w : Word) : Prop :=
  ∃ r ∈ db.vocabRows, r.user_id = uid ∧ r.word_id = w.id ∧ isDueRow now r = true

/-- A word is new for the user: no progress row of the user references it. -/
def isNew (db : DB) (uid : ℕ) (w : Word) : Prop :=
  ∀ r ∈ db.vocabRows, r.user_id = uid → r.word_id ≠ w.id

/-- The user's progress row for a word, if any. -/
def rowFor (db : DB) (uid : ℕ) (w : Word) : Option VocabRow :=
  db.vocabRows.find? (fun r => r.user_id == uid && r.word_id == w.id)

/-- The sort key `next_review` of the user's row for a word (0 if absent),
used to state the ordering of the due segment of a batch. -/
def reviewKey (db : DB) (uid : ℕ) (w : Word) : ℚ :=
  ((rowFor db uid w).bind (fun r => r.next_review)).getD 0

/-- Well-formedness from the schema: dictionary ids are primary keys, and
the `(user_id, word_id)` pairs of the progress table are unique, so the
user's practiced word ids carry no duplicate. -/
def DBwf (db : DB) (uid : ℕ) : Prop :=
  (db.dict.map (fun w => w.id)).Nodup ∧ (practiced_ids db uid).Nodup

/-- A store for the ceiling scenario: one completed C2 grammar rule and one
completed c2 word for user 1, so both percentages are 100. -/
def dbC2 : DB :=
  ⟨[⟨1, "zenith", "c2"⟩], [⟨"g1", "C2"⟩],
   [⟨1, 1, true, 3, 3, none, none, 15, 5/2⟩], [⟨1, "g1", true⟩]⟩

/-- A one-word dictionary shared by the isolation scenario stores. -/
def isoDict : List Word :=
  [⟨1, "apple", "a1"⟩]

/-- Isolation scenario, first store: user 1 has one row, user 2 has one
row too. -/
def dbIso1 : DB :=
  ⟨isoDict, [], [⟨1, 1, false, 1, 1, some 0, some 1, 1, 5/2⟩,
                 ⟨2, 1, true, 9, 9, some 0, some 2, 6, 5/2⟩], []⟩

/-- Isolation scenario, second store: user 1 has the same row, user 2's
row is gone. -/
def dbIso2 : DB :=
  ⟨isoDict, [], [⟨1, 1, false, 1, 1, some 0, some 1, 1, 5/2⟩], []⟩

/-- The fully sorted due join (stage 1 before `LIMIT`). -/
def dueSorted (db : DB) (uid : ℕ) (lvl : String) (now : ℚ) : List (Word × VocabRow) :=
  (dueJoin db uid lvl now).mergeSort dueLe

/-- All due words at the level, most overdue first (stage 1 before
`LIMIT`). -/
def dueAll (db : DB) (uid : ℕ) (lvl : String) (now : ℚ) : List Word :=
  (dueSorted db uid lvl now).map Prod.fst

/-- All never-practiced words at the level in lexical order (stage 2
before `LIMIT`). -/
def newSorted (db : DB) (uid : ℕ) (lvl : String) : List Word :=
  (db.dict.filter
    (fun w => w.level == pyLower lvl && !((practiced_ids db uid).contains w.id))).mergeSort wordLe

/-- All not-yet-selected words at the level in lexical order (stage 3
before `LIMIT`). -/
def poolSorted (db : DB) (lvl : String) (existing : List ℕ) : List Word :=
  (db.dict.filter (fun w => w.level == pyLower lvl && !(existing.contains w.id))).mergeSort wordLe

/-- Stage 2 of `get_practice_words` as a function of the batch so far. -/
def stage2 (db : DB) (uid : ℕ) (lvl : String) (count : ℕ) (w1 : List Word) : List Word :=
  if w1.length < count then w1 ++ new_words db uid lvl (count - w1.length) else w1

/-- Stage 3 of `get_practice_words` as a function of the batch so far. -/
def stage3 (db : DB) (lvl : String) (count : ℕ) (shuffle : List Word → List Word)
    (w2 : List Word) : List Word :=
  if w2.length < count then
    w2 ++ (shuffle (backfill_pool db lvl (w2.map (fun w => w.id))
        ((count - w2.length) * 2))).take (count - w2.length)
  else w2

/-- The scheduler-priority scenario: at level a1, word 1 is due for user 1,
word 2 was never practiced, and word 3 was practiced but is not due. -/
def dbSched : DB :=
  ⟨[⟨1, "due", "a1"⟩, ⟨2, "new", "a1"⟩, ⟨3, "seen", "a1"⟩], [],
   [⟨1, 1, false, 1, 1, some 0, some 0, 1, 5/2⟩,
    ⟨1, 3, false, 1, 1, some 0, some 100, 1, 5/2⟩], []⟩

/-- The numeric invariant of a review row: ease factor in [1.3, 2.5] and
interval at least one day. -/
def rowInv (r : VocabRow) : Prop :=
  13/10 ≤ r.ease_factor ∧ r.ease_factor ≤ 5/2 ∧ 1 ≤ r.interval

/-- The completion invariant of a vocabulary row: `completed` implies the
streak reached the configured threshold. -/
def completedInv (s : Settings) (r : VocabRow) : Prop :=
  r.completed = true → s.REQUIRED_CORRECT_ATTEMPTS ≤ r.correct_count

/-- The empty database. -/
def emptyDB : DB :=
  ⟨[], [], [], []⟩


/-! ### Helper lemmas -/

/-- On nonnegative rationals, truncation toward zero is the floor. -/
theorem pyInt_eq_floor (q : ℚ) (h : 0 ≤ q) : pyInt q = ⌊q⌋ := by
  simp [pyInt, h]

/-- C1: a correct answer bumps the streak; the interval becomes 1 at streak
1, 6 at streak 2, and `⌊interval * ease_factor⌋` (pre-answer values) from
streak 3 on; the ease factor becomes `min 2.5 (ease + 0.1)`; `completed`
is set exactly when the updated streak reaches the threshold and is left
untouched below it; and three correct answers from no prior state give
`completed = true` and `interval = 15`. -/
theorem update_correct_sm2 (s : Settings) (now : ℚ) (r : VocabRow)
    (hi : 0 ≤ r.interval) (he : 0 ≤ r.ease_factor) :
    (update_row s now true r).correct_count = r.correct_count + 1 ∧
    (update_row s now true r).interval =
      (if r.correct_count + 1 = 1 then 1
       else if r.correct_count + 1 = 2 then 6
       else ⌊(r.interval : ℚ) * r.ease_factor⌋) ∧
    (update_row s now true r).ease_factor = min (5/2) (r.ease_factor + 1/10) ∧
    (s.REQUIRED_CORRECT_ATTEMPTS ≤ r.correct_count + 1 →
      (update_row s now true r).completed = true) ∧
    (r.correct_count + 1 < s.REQUIRED_CORRECT_ATTEMPTS →
      (update_row s now true r).completed = r.completed) ∧
    (runAnswers defaultSettings [(true, 0), (true, 1), (true, 7)]).completed = true ∧
    (runAnswers defaultSettings [(true, 0), (true, 1), (true, 7)]).interval = 15 := by
  refine ⟨by simp [update_row], ?_, by simp [update_row], ?_, ?_, ?_, ?_⟩
  · have hprod : (0 : ℚ) ≤ (r.interval : ℚ) * r.ease_factor :=
      mul_nonneg (by exact_mod_cast hi) he
    simp [update_row, pyInt_eq_floor _ hprod]
  · intro h
    simp [update_row, h]
  · intro h
    simp [update_row, Nat.not_le.mpr h]
  · norm_num [runAnswers, update_row, initRow, defaultSettings, pyInt]
  · norm_num [runAnswers, update_row, initRow, defaultSettings, pyInt]

/-- Witness for `update_correct_sm2` at a concrete state. -/
theorem update_correct_sm2_witness :
    (update_row defaultSettings 0 true (initRow 1 1)).correct_count = 1 := by
  have h := update_correct_sm2 defaultSettings 0 (initRow 1 1) (by simp [initRow]) (by norm_num [initRow])
  simpa [initRow] using h.1

/-- C2: an incorrect answer resets the streak to 0, the interval to 1 and
`completed` to false, lowers the ease factor to `max 1.3 (ease - 0.2)`,
and in both branches `next_review` is `now` plus the updated interval --
so `now + 1` after an incorrect answer. The quoted scenario
(streak 2, interval 6, ease 2.5) yields streak 0, interval 1, ease 2.3,
`completed = false`. -/
theorem update_incorrect_reset (s : Settings) (now : ℚ) (r : VocabRow) :
    (update_row s now false r).correct_count = 0 ∧
    (update_row s now false r).interval = 1 ∧
    (update_row s now false r).completed = false ∧
    (update_row s now false r).ease_factor = max (13/10) (r.ease_factor - 1/5) ∧
    (∀ c : Bool, (update_row s now c r).next_review =
      some (now + ((update_row s now c r).interval : ℚ))) ∧
    (update_row s now false r).next_review = some (now + 1) ∧
    (update_row defaultSettings now false
        { user_id := 1, word_id := 1, completed := false, attempts := 2, correct_count := 2,
          last_review := none, next_review := none, interval := 6, ease_factor := 5/2 }) =
      { user_id := 1, word_id := 1, completed := false, attempts := 3, correct_count := 0,
        last_review := some now, next_review := some (now + 1), interval := 1,
        ease_factor := 23/10 } := by
  refine ⟨by simp [update_row], by simp [update_row], by simp [update_row],
    by simp [update_row], ?_, by simp [update_row], ?_⟩
  · intro c
    cases c <;> simp [update_row]
  · norm_num [update_row]

/-- C3 counterexample: after three correct answers `completed` is true, yet
one subsequent incorrect answer sets it back to false -- `completed` is
not preserved by later calls. -/
theorem completed_not_monotone_cex :
    (runAnswers defaultSettings [(true, 0), (true, 1), (true, 2)]).completed = true ∧
    (runAnswers defaultSettings [(true, 0), (true, 1), (true, 2), (false, 3)]).completed = false := by
  constructor
  · norm_num [runAnswers, update_row, initRow, defaultSettings, pyInt]
  · norm_num [runAnswers, update_row, initRow, defaultSettings, pyInt]

/-- C3 amended: vocabulary completion is revocable. `completed` survives
any further correct answer, but any incorrect answer resets it to false. -/
theorem completed_reset_on_incorrect (s : Settings) (now : ℚ) (r : VocabRow) :
    (update_row s now false r).completed = false ∧
    (r.completed = true → (update_row s now true r).completed = true) := by
  constructor
  · simp [update_row]
  · intro h
    simp only [update_row]
    split <;> simp_all

/-- Witness for `completed_reset_on_incorrect` at a completed row. -/
theorem completed_reset_on_incorrect_witness :
    (update_row defaultSettings 4 false
        { user_id := 1, word_id := 1, completed := true, attempts := 3, correct_count := 3,
          last_review := none, next_review := none, interval := 15, ease_factor := 5/2 }).completed = false ∧
    (update_row defaultSettings 4 true
        { user_id := 1, word_id := 1, completed := true, attempts := 3, correct_count := 3,
          last_review := none, next_review := none, interval := 15, ease_factor := 5/2 }).completed = true := by
  exact ⟨(completed_reset_on_incorrect defaultSettings 4 _).1,
    (completed_reset_on_incorrect defaultSettings 4 _).2 rfl⟩

/-- Field computation: ease factor after an incorrect answer. -/
theorem update_row_ease_false (s : Settings) (now : ℚ) (r : VocabRow) :
    (update_row s now false r).ease_factor = max (13/10) (r.ease_factor - 1/5) := by
  simp [update_row]

/-- Field computation: interval after an incorrect answer. -/
theorem update_row_interval_false (s : Settings) (now : ℚ) (r : VocabRow) :
    (update_row s now false r).interval = 1 := by
  simp [update_row]

/-- Field computation: ease factor after a correct answer. -/
theorem update_row_ease_true (s : Settings) (now : ℚ) (r : VocabRow) :
    (update_row s now true r).ease_factor = min (5/2) (r.ease_factor + 1/10) := by
  simp [update_row]

/-- Field computation: interval after a correct answer. -/
theorem update_row_interval_true (s : Settings) (now : ℚ) (r : VocabRow) :
    (update_row s now true r).interval =
      (if r.correct_count = 0 then 1
       else if r.correct_count = 1 then 6
       else pyInt ((r.interval : ℚ) * r.ease_factor)) := by
  simp [update_row]

/-- One `update_word_progress` transition preserves the numeric invariant. -/
theorem update_row_inv (s : Settings) (now : ℚ) (c : Bool) (r : VocabRow)
    (h : rowInv r) : rowInv (update_row s now c r) := by
  obtain ⟨h1, h2, h3⟩ := h
  cases c with
  | false =>
      refine ⟨?_, ?_, ?_⟩
      · rw [update_row_ease_false]
        exact le_max_left _ _
      · rw [update_row_ease_false, max_le_iff]
        constructor <;> linarith
      · rw [update_row_interval_false]
  | true =>
      refine ⟨?_, ?_, ?_⟩
      · rw [update_row_ease_true, le_min_iff]
        constructor <;> linarith
      · rw [update_row_ease_true]
        exact min_le_left _ _
      · rw [update_row_interval_true]
        split
        · omega
        · split
          · omega
          · have hq : (1 : ℚ) ≤ (r.interval : ℚ) * r.ease_factor := by
              have hi1 : (1 : ℚ) ≤ (r.interval : ℚ) := by exact_mod_cast h3
              nlinarith
            rw [pyInt_eq_floor _ (by linarith)]
            exact Int.le_floor.mpr (by exact_mod_cast hq)

/-- C4: starting from the lazily created initial state, after every prefix
of every answer sequence the ease factor lies in [1.3, 2.5] and the
interval is an integer at least 1. -/
theorem ease_interval_invariant (s : Settings) (answers : List (Bool × ℚ)) :
    13/10 ≤ (runAnswers s answers).ease_factor ∧
    (runAnswers s answers).ease_factor ≤ 5/2 ∧
    1 ≤ (runAnswers s answers).interval := by
  have hinit : rowInv (initRow 1 1) := by
    refine ⟨by norm_num [initRow], by norm_num [initRow], by simp [initRow]⟩
  have main : ∀ (l : List (Bool × ℚ)) (r : VocabRow), rowInv r →
      rowInv (l.foldl (fun r a => update_row s a.2 a.1 r) r) := by
    intro l
    induction l with
    | nil => intro r h; exact h
    | cons a l ih =>
        intro r h
        exact ih _ (update_row_inv s a.2 a.1 r h)
  exact main answers (initRow 1 1) hinit

/-- C5 counterexample: on an empty store (which satisfies the invariant
vacuously) `mark_word_completed` creates a row with `completed = true` and
`correct_count = 0 < 3`, so it does not preserve the invariant. -/
theorem mark_word_completed_breaks_inv :
    (∀ r ∈ emptyDB.vocabRows, completedInv defaultSettings r) ∧
    ¬ (∀ r ∈ (mark_word_completed emptyDB 1 1).vocabRows, completedInv defaultSettings r) := by
  constructor
  · intro r hr
    simp [emptyDB] at hr
  · intro hcontra
    have hmem : ({ initRow 1 1 with attempts := 1, completed := true } : VocabRow) ∈
        (mark_word_completed emptyDB 1 1).vocabRows := by
      simp [mark_word_completed, emptyDB]
    have := hcontra _ hmem rfl
    simp [initRow, defaultSettings] at this

/-- Membership after `updateFirst`: every row of the result is either an
original row or the image under `f` of an original row. -/
theorem mem_updateFirst {p : VocabRow → Bool} {f : VocabRow → VocabRow}
    {l : List VocabRow} {r : VocabRow} (h : r ∈ updateFirst p f l) :
    r ∈ l ∨ ∃ r0 ∈ l, r = f r0 := by
  induction l with
  | nil => simp [updateFirst] at h
  | cons a l ih =>
      simp only [updateFirst] at h
      by_cases hp : p a
      · rw [if_pos hp] at h
        rcases List.mem_cons.mp h with h1 | h1
        · exact Or.inr ⟨a, List.mem_cons_self a l, h1⟩
        · exact Or.inl (List.mem_cons_of_mem _ h1)
      · rw [if_neg hp] at h
        rcases List.mem_cons.mp h with h1 | h1
        · exact Or.inl (h1 ▸ List.mem_cons_self a l)
        · rcases ih h1 with h2 | ⟨r0, hr0, hr0e⟩
          · exact Or.inl (List.mem_cons_of_mem _ h2)
          · exact Or.inr ⟨r0, List.mem_cons_of_mem _ hr0, hr0e⟩

/-- Field computation: streak after a correct answer. -/
theorem update_row_cc_true (s : Settings) (now : ℚ) (r : VocabRow) :
    (update_row s now true r).correct_count = r.correct_count + 1 := by
  simp [update_row]

/-- Field computation: `completed` after a correct answer. -/
theorem update_row_completed_true (s : Settings) (now : ℚ) (r : VocabRow) :
    (update_row s now true r).completed =
      (if s.REQUIRED_CORRECT_ATTEMPTS ≤ r.correct_count + 1 then true else r.completed) := by
  simp [update_row]

/-- Field computation: `completed` after an incorrect answer. -/
theorem update_row_completed_false (s : Settings) (now : ℚ) (r : VocabRow) :
    (update_row s now false r).completed = false := by
  simp [update_row]

/-- One `update_row` transition preserves the completion invariant. -/
theorem update_row_completedInv (s : Settings) (now : ℚ) (c : Bool) (r : VocabRow)
    (h : completedInv s r) : completedInv s (update_row s now c r) := by
  cases c with
  | false =>
      intro hc
      rw [update_row_completed_false] at hc
      exact absurd hc (by simp)
  | true =>
      intro hc
      rw [update_row_cc_true]
      rw [update_row_completed_true] at hc
      by_cases hreq : s.REQUIRED_CORRECT_ATTEMPTS ≤ r.correct_count + 1
      · omega
      · rw [if_neg hreq] at hc
        have := h hc
        omega

/-- C5 amended: `update_word_progress` preserves the invariant
`completed = true → correct_count ≥ REQUIRED_CORRECT_ATTEMPTS` on every
row of the store; `mark_word_completed` does not (see the counterexample:
it sets `completed` without touching the streak). -/
theorem update_preserves_completed_inv (s : Settings) (db : DB) (uid wid : ℕ)
    (c : Bool) (now : ℚ) (h : ∀ r ∈ db.vocabRows, completedInv s r) :
    ∀ r ∈ (update_word_progress s db uid wid c now).vocabRows, completedInv s r := by
  intro r hr
  simp only [update_word_progress] at hr
  cases hfind : db.vocabRows.find? (keyMatch uid wid) with
  | some r0 =>
      rw [hfind] at hr
      simp only at hr
      rcases mem_updateFirst hr with h1 | ⟨r1, hr1, hr1e⟩
      · exact h r h1
      · exact hr1e ▸ update_row_completedInv s now c r1 (h r1 hr1)
  | none =>
      rw [hfind] at hr
      simp only [List.mem_append, List.mem_singleton] at hr
      rcases hr with h1 | h1
      · exact h r h1
      · have hinit : completedInv s (initRow uid wid) := by
          intro hc
          simp [initRow] at hc
        exact h1 ▸ update_row_completedInv s now c _ hinit

/-- Witness for `update_preserves_completed_inv` on a concrete store: the
updated row of a one-row store keeps the streak at or above the
threshold. -/
theorem update_preserves_completed_inv_witness :
    defaultSettings.REQUIRED_CORRECT_ATTEMPTS ≤
      (update_row defaultSettings 0 true
        ⟨1, 1, true, 3, 3, none, none, 15, 5/2⟩).correct_count := by
  have hinv : ∀ r ∈ (⟨[], [], [⟨1, 1, true, 3, 3, none, none, 15, 5/2⟩], []⟩ : DB).vocabRows,
      completedInv defaultSettings r := by
    intro r hr
    simp only [List.mem_singleton] at hr
    subst hr
    intro hc
    decide
  have hmem : update_row defaultSettings 0 true
      (⟨1, 1, true, 3, 3, none, none, 15, 5/2⟩ : VocabRow) ∈
      (update_word_progress defaultSettings
        ⟨[], [], [⟨1, 1, true, 3, 3, none, none, 15, 5/2⟩], []⟩ 1 1 true 0).vocabRows := by
    simp [update_word_progress, updateFirst, keyMatch]
  have hcomp : (update_row defaultSettings 0 true
      (⟨1, 1, true, 3, 3, none, none, 15, 5/2⟩ : VocabRow)).completed = true := by
    rw [update_row_completed_true]
    decide
  exact update_preserves_completed_inv defaultSettings
    ⟨[], [], [⟨1, 1, true, 3, 3, none, none, 15, 5/2⟩], []⟩ 1 1 true 0 hinv _ hmem hcomp

/-- `update_row` never changes the row's key. -/
theorem keyMatch_update_row (s : Settings) (now : ℚ) (c : Bool) (uid wid : ℕ) (r : VocabRow) :
    keyMatch uid wid (update_row s now c r) = keyMatch uid wid r := by
  cases c <;> simp [update_row, keyMatch]

/-- `updateFirst` keeps a `p`-satisfying row present whenever `f` preserves
`p`. -/
theorem exists_mem_updateFirst {p : VocabRow → Bool} {f : VocabRow → VocabRow}
    (hp : ∀ r, p (f r) = p r) {l : List VocabRow} (h : ∃ x ∈ l, p x) :
    ∃ x ∈ updateFirst p f l, p x := by
  induction l with
  | nil => simp at h
  | cons a l ih =>
      by_cases hpa : p a
      · exact ⟨f a, by simp [updateFirst, hpa], by rw [hp]; exact hpa⟩
      · obtain ⟨x, hx, hpx⟩ := h
        rcases List.mem_cons.mp hx with h1 | h1
        · exact absurd (h1 ▸ hpx) (by simp [hpa])
        · obtain ⟨y, hy, hpy⟩ := ih ⟨x, h1, hpx⟩
          exact ⟨y, by simp [updateFirst, hpa, hy], hpy⟩

/-- C9 counterexample: with an empty dictionary (so word 42 does not
exist), answering a practice card neither fails nor leaves the store
unchanged -- a review state is created for the dangling word id. -/
theorem missing_word_state_created_cex :
    emptyDB.dict = [] ∧
    (practice_answer defaultSettings emptyDB 1 42 "x" "y" 0).vocabRows =
      [update_row defaultSettings 0 false (initRow 1 42)] := by
  constructor
  · rfl
  · simp [practice_answer, update_word_progress, emptyDB]

/-- C9 amended: neither `update_word_progress` nor the `practice_answer`
route checks that the word exists. The route is exactly string grading
followed by `update_word_progress`; after the call a review state for
`(user, word)` always exists; and when none existed before, the store
gains exactly the updated initial row -- all without any reference to the
dictionary. -/
theorem no_word_existence_check (s : Settings) (db : DB) (uid wid : ℕ)
    (sel cor : String) (now : ℚ) :
    practice_answer s db uid wid sel cor now = update_word_progress s db uid wid (sel == cor) now ∧
    ((update_word_progress s db uid wid (sel == cor) now).vocabRows.find?
        (keyMatch uid wid)).isSome = true ∧
    (db.vocabRows.find? (keyMatch uid wid) = none →
      (update_word_progress s db uid wid (sel == cor) now).vocabRows =
        db.vocabRows ++ [update_row s now (sel == cor) (initRow uid wid)]) := by
  refine ⟨rfl, ?_, ?_⟩
  · cases hfind : db.vocabRows.find? (keyMatch uid wid) with
    | some r0 =>
        simp only [update_word_progress, hfind]
        rw [List.find?_isSome]
        have hex : ∃ x ∈ db.vocabRows, keyMatch uid wid x := by
          rw [← List.find?_isSome, hfind]
          rfl
        exact exists_mem_updateFirst (keyMatch_update_row s now (sel == cor) uid wid) hex
    | none =>
        simp only [update_word_progress, hfind]
        rw [List.find?_isSome]
        refine ⟨update_row s now (sel == cor) (initRow uid wid), by simp, ?_⟩
        rw [keyMatch_update_row]
        simp [keyMatch, initRow]
  · intro hfind
    simp [update_word_progress, hfind]

/-- Witness for `no_word_existence_check` on the empty store. -/
theorem no_word_existence_check_witness :
    practice_answer defaultSettings emptyDB 1 42 "x" "x" 3 =
      update_word_progress defaultSettings emptyDB 1 42 ("x" == "x") 3 ∧
    ((update_word_progress defaultSettings emptyDB 1 42 ("x" == "x") 3).vocabRows.find?
        (keyMatch 1 42)).isSome = true ∧
    (update_word_progress defaultSettings emptyDB 1 42 ("x" == "x") 3).vocabRows =
      emptyDB.vocabRows ++ [update_row defaultSettings 3 ("x" == "x") (initRow 1 42)] := by
  obtain ⟨h1, h2, h3⟩ := no_word_existence_check defaultSettings emptyDB 1 42 "x" "x" 3
  exact ⟨h1, h2, h3 rfl⟩

/-- C8: the snapshot's advancement flag is the conjunction of the two
threshold comparisons on the percentage formulas; each percentage is
`completed / total * 100` with 0 on an empty total (no exception);
`next_level` is absent when advancement is denied or the level is C2, and
otherwise is the next entry of the fixed sequence `LEVELS`; 8 of 10 rules
give 80 percent; and in the concrete ceiling store (both percentages 100
at C2) advancement is allowed yet `next_level` is absent. -/
theorem level_progress_formulas (s : Settings) (db : DB) (uid : ℕ) (lvl : String) :
    ((get_level_progress s db uid lvl).can_advance = true ↔
      ((s.GRAMMAR_COMPLETION_THRESHOLD : ℚ) ≤
          pct (completed_grammar db uid lvl) (total_grammar db lvl) ∧
       (s.VOCAB_COMPLETION_THRESHOLD : ℚ) ≤
          pct (completed_words db uid lvl) (total_words db lvl))) ∧
    (total_grammar db lvl = 0 →
      pct (completed_grammar db uid lvl) (total_grammar db lvl) = 0) ∧
    (0 < total_grammar db lvl →
      pct (completed_grammar db uid lvl) (total_grammar db lvl) =
        (completed_grammar db uid lvl : ℚ) / (total_grammar db lvl : ℚ) * 100) ∧
    (total_words db lvl = 0 →
      pct (completed_words db uid lvl) (total_words db lvl) = 0) ∧
    (0 < total_words db lvl →
      pct (completed_words db uid lvl) (total_words db lvl) =
        (completed_words db uid lvl : ℚ) / (total_words db lvl : ℚ) * 100) ∧
    ((get_level_progress s db uid lvl).can_advance = false →
      (get_level_progress s db uid lvl).next_level = none) ∧
    (pyUpper lvl = "C2" → (get_level_progress s db uid lvl).next_level = none) ∧
    (∀ i : ℕ, LEVELS.indexOf (pyUpper lvl) = i → i + 1 < LEVELS.length →
      (get_level_progress s db uid lvl).can_advance = true →
      (get_level_progress s db uid lvl).next_level = LEVELS[i + 1]?) ∧
    pct 8 10 = 80 ∧ pyRound1 (pct 8 10) = 80 ∧
    (get_level_progress defaultSettings dbC2 1 "C2").can_advance = true ∧
    (get_level_progress defaultSettings dbC2 1 "C2").next_level = none := by
  have hup : pyUpper "C2" = "C2" := rfl
  have hlo : pyLower "C2" = "c2" := rfl
  have hidx : LEVELS.indexOf "C2" = 5 := rfl
  have hlen : LEVELS.length = 6 := rfl
  refine ⟨?_, ?_, ?_, ?_, ?_, ?_, ?_, ?_, ?_, ?_, ?_, ?_⟩
  · simp [get_level_progress, Bool.and_eq_true, decide_eq_true_iff]
  · intro h
    simp [pct, h]
  · intro h
    simp [pct, h]
  · intro h
    simp [pct, h]
  · intro h
    simp [pct, h]
  · intro h
    simp only [get_level_progress] at h ⊢
    rw [h]
    simp
  · intro h
    simp only [get_level_progress]
    rw [h, hidx, hlen]
    norm_num
  · intro i hi hilen hca
    simp only [get_level_progress] at hca ⊢
    rw [hca, hi, if_pos hilen]
    simp
  · norm_num [pct]
  · norm_num [pct, pyRound1, pyRound]
  · norm_num [get_level_progress, total_grammar, completed_grammar, total_words, completed_words,
      dbC2, pct, hup, hlo, defaultSettings]
  · norm_num [get_level_progress, total_grammar, completed_grammar, total_words, completed_words,
      dbC2, pct, hup, hlo, hidx, hlen, defaultSettings]

/-- Witness for `level_progress_formulas` on the ceiling store. -/
theorem level_progress_formulas_witness :
    pct 8 10 = 80 ∧
    (get_level_progress defaultSettings dbC2 1 "C2").next_level = none := by
  have h := level_progress_formulas defaultSettings dbC2 1 "C2"
  exact ⟨h.2.2.2.2.2.2.2.2.1, h.2.2.2.2.2.2.1 rfl⟩

/-- Stage 1's row filter factors through the user's rows. -/
theorem dueJoin_eq_userRows (db : DB) (uid : ℕ) (lvl : String) (now : ℚ) :
    dueJoin db uid lvl now =
      (db.dict.filter (fun w => w.level == pyLower lvl)).flatMap
        (fun w => (((db.vocabRows.filter (fun r => r.user_id == uid)).filter
            (fun r => r.word_id == w.id && isDueRow now r)).map (fun r => (w, r)))) := by
  simp only [dueJoin]
  refine congrArg _ (funext fun w => ?_)
  rw [List.filter_filter]
  refine congrArg (fun l => List.map _ l) (List.filter_congr fun x hx => ?_)
  cases h1 : (x.word_id == w.id) <;> cases h2 : (x.user_id == uid) <;>
    cases h3 : isDueRow now x <;> simp [h1, h2, h3]

/-- C10: the batch depends only on the dictionary and the requesting
user's own rows: two stores that agree on the dictionary and on the
user's progress rows (in order) produce the same batch for every level,
count, clock and shuffle. -/
theorem practice_user_isolation (db1 db2 : DB) (uid : ℕ) (lvl : String) (count : ℕ)
    (now : ℚ) (shuffle : List Word → List Word)
    (hd : db1.dict = db2.dict)
    (hr : db1.vocabRows.filter (fun r => r.user_id == uid) =
          db2.vocabRows.filter (fun r => r.user_id == uid)) :
    get_practice_words db1 uid lvl count now shuffle =
      get_practice_words db2 uid lvl count now shuffle := by
  have h1 : due_words db1 uid lvl now count = due_words db2 uid lvl now count := by
    rw [due_words, due_words, dueJoin_eq_userRows, dueJoin_eq_userRows, hd, hr]
  have h2 : ∀ rem, new_words db1 uid lvl rem = new_words db2 uid lvl rem := by
    intro rem
    simp only [new_words, practiced_ids]
    rw [hd, hr]
  have h3 : ∀ ex lim, backfill_pool db1 lvl ex lim = backfill_pool db2 lvl ex lim := by
    intro ex lim
    simp only [backfill_pool]
    rw [hd]
  simp only [get_practice_words, h1, h2, h3]

/-- Witness for `practice_user_isolation`: dropping the second user's row
does not change the first user's batch. -/
theorem practice_user_isolation_witness :
    get_practice_words dbIso1 1 "a1" 1 0 id = get_practice_words dbIso2 1 "a1" 1 0 id := by
  exact practice_user_isolation dbIso1 dbIso2 1 "a1" 1 0 id rfl rfl

/-- The scheduler is the three stages followed by the final truncation. -/
theorem get_practice_words_eq (db : DB) (uid : ℕ) (lvl : String) (count : ℕ) (now : ℚ)
    (shuffle : List Word → List Word) :
    get_practice_words db uid lvl count now shuffle =
      (stage3 db lvl count shuffle (stage2 db uid lvl count
        (due_words db uid lvl now count))).take count := by
  rfl

/-- Stage 1 is a prefix of the sorted due list. -/
theorem due_words_eq_take (db : DB) (uid : ℕ) (lvl : String) (now : ℚ) (count : ℕ) :
    due_words db uid lvl now count = (dueAll db uid lvl now).take count := by
  rw [due_words, dueAll, dueSorted, List.map_take]

/-- Stage 2's fetch is a prefix of the sorted new list. -/
theorem new_words_eq_take (db : DB) (uid : ℕ) (lvl : String) (rem : ℕ) :
    new_words db uid lvl rem = (newSorted db uid lvl).take rem := rfl

/-- Stage 3's fetch is a prefix of the sorted remaining list. -/
theorem backfill_pool_eq_take (db : DB) (lvl : String) (ex : List ℕ) (lim : ℕ) :
    backfill_pool db lvl ex lim = (poolSorted db lvl ex).take lim := rfl

/-- Membership in the stage-1 join. -/
theorem mem_dueJoin (db : DB) (uid : ℕ) (lvl : String) (now : ℚ) (w : Word) (r : VocabRow) :
    (w, r) ∈ dueJoin db uid lvl now ↔
      (w ∈ db.dict ∧ w.level = pyLower lvl ∧ r ∈ db.vocabRows ∧
        r.word_id = w.id ∧ r.user_id = uid ∧ isDueRow now r = true) := by
  simp only [dueJoin, List.mem_flatMap, List.mem_filter, List.mem_map, Bool.and_eq_true,
    beq_iff_eq, Prod.mk.injEq]
  constructor
  · rintro ⟨w', ⟨hw', hlv⟩, r', ⟨hr', ⟨hw'', hu⟩, hd⟩, hwe, hre⟩
    subst hwe
    subst hre
    exact ⟨hw', hlv, hr', hw'', hu, hd⟩
  · rintro ⟨hw, hlv, hr, hwid, hu, hd⟩
    exact ⟨w, ⟨hw, hlv⟩, r, ⟨hr, ⟨hwid, hu⟩, hd⟩, rfl, rfl⟩

/-- Membership in the full sorted due list. -/
theorem mem_dueAll (db : DB) (uid : ℕ) (lvl : String) (now : ℚ) (w : Word) :
    w ∈ dueAll db uid lvl now ↔
      (w ∈ db.dict ∧ w.level = pyLower lvl ∧ isDue db uid now w) := by
  rw [dueAll, dueSorted]
  rw [List.mem_map]
  constructor
  · rintro ⟨p, hp, hpe⟩
    have hp' : p ∈ dueJoin db uid lvl now := (List.mergeSort_perm _ _).subset hp
    obtain ⟨w', r⟩ := p
    cases hpe
    obtain ⟨h1, h2, h3, h4, h5, h6⟩ := (mem_dueJoin db uid lvl now w' r).mp hp'
    exact ⟨h1, h2, r, h3, h5, h4, h6⟩
  · rintro ⟨hw, hlv, r, hr, hu, hwid, hd⟩
    refine ⟨(w, r), ?_, rfl⟩
    refine (List.mergeSort_perm (dueJoin db uid lvl now) dueLe).mem_iff.mpr ?_
    exact (mem_dueJoin db uid lvl now w r).mpr ⟨hw, hlv, hr, hwid, hu, hd⟩

/-- A word id is practiced exactly when some row of the user references it. -/
theorem mem_practiced_ids (db : DB) (uid : ℕ) (n : ℕ) :
    n ∈ practiced_ids db uid ↔ ∃ r ∈ db.vocabRows, r.user_id = uid ∧ r.word_id = n := by
  simp only [practiced_ids, List.mem_map, List.mem_filter, beq_iff_eq]
  constructor
  · rintro ⟨r, ⟨hr, hu⟩, he⟩
    exact ⟨r, hr, hu, he⟩
  · rintro ⟨r, hr, hu, he⟩
    exact ⟨r, ⟨hr, hu⟩, he⟩

/-- `isNew` is the absence of the word id among the practiced ids. -/
theorem isNew_iff (db : DB) (uid : ℕ) (w : Word) :
    isNew db uid w ↔ w.id ∉ practiced_ids db uid := by
  rw [mem_practiced_ids, isNew]
  constructor
  · rintro h ⟨r, hr, hu, he⟩
    exact h r hr hu he
  · intro h r hr hu he
    exact h ⟨r, hr, hu, he⟩

/-- Membership in the sorted new-words list. -/
theorem mem_newSorted (db : DB) (uid : ℕ) (lvl : String) (w : Word) :
    w ∈ newSorted db uid lvl ↔
      (w ∈ db.dict ∧ w.level = pyLower lvl ∧ isNew db uid w) := by
  rw [newSorted, (List.mergeSort_perm _ _).mem_iff, List.mem_filter, isNew_iff]
  simp [List.elem_iff]

/-- Membership in the sorted backfill pool. -/
theorem mem_poolSorted (db : DB) (lvl : String) (ex : List ℕ) (w : Word) :
    w ∈ poolSorted db lvl ex ↔
      (w ∈ db.dict ∧ w.level = pyLower lvl ∧ w.id ∉ ex) := by
  rw [poolSorted, (List.mergeSort_perm _ _).mem_iff, List.mem_filter]
  simp [List.elem_iff]

/-- A list of distinct elements drawn from another list is no longer than
its source. -/
theorem nodup_subset_length_le {l1 l2 : List ℕ} (h1 : l1.Nodup) (hsub : l1 ⊆ l2) :
    l1.length ≤ l2.length := by
  calc l1.length = l1.toFinset.card := (List.toFinset_card_of_nodup h1).symm
    _ ≤ l2.toFinset.card := Finset.card_le_card (fun x hx => by
        rw [List.mem_toFinset] at hx ⊢
        exact hsub hx)
    _ ≤ l2.length := l2.toFinset_card_le

/-- A duplicate-free list whose elements are all equal has at most one
element. -/
theorem length_le_one_of_nodup_const {l : List VocabRow} (c : ℕ)
    (h : (l.map (fun r => r.word_id)).Nodup) (hc : ∀ r ∈ l, r.word_id = c) :
    l.length ≤ 1 := by
  match l with
  | [] => simp
  | [r] => simp
  | r1 :: r2 :: rs =>
      exfalso
      have h1 : r1.word_id = c := hc r1 (by simp)
      have h2 : r2.word_id = c := hc r2 (by simp)
      simp only [List.map_cons, List.nodup_cons, List.mem_cons, List.mem_map] at h
      exact h.1 (Or.inl (h1.trans h2.symm))

/-- When every inner list has at most one element, all equal to the image
of its index, the flattened list is a sublist of the mapped one. -/
theorem flatMap_sublist_map {α β : Type} (l : List α) (g : α → List β) (f : α → β)
    (h1 : ∀ x, (g x).length ≤ 1) (h2 : ∀ x, ∀ b ∈ g x, b = f x) :
    (l.flatMap g).Sublist (l.map f) := by
  induction l with
  | nil => simp
  | cons a l ih =>
      rw [List.flatMap_cons, List.map_cons]
      match hga : g a with
      | [] =>
          simpa using ih.cons (f a)
      | [b] =>
          have hb : b = f a := h2 a b (by rw [hga]; simp)
          subst hb
          simpa using ih.cons₂ (f a)
      | b1 :: b2 :: bs =>
          exfalso
          have := h1 a
          rw [hga] at this
          simp at this

/-- The stage-1 row filter for one word, factored through the user's rows. -/
theorem dueRows_factor (db : DB) (uid : ℕ) (now : ℚ) (w : Word) :
    db.vocabRows.filter (fun r => r.word_id == w.id && r.user_id == uid && isDueRow now r) =
      (db.vocabRows.filter (fun r => r.user_id == uid)).filter
        (fun r => r.word_id == w.id && isDueRow now r) := by
  rw [List.filter_filter]
  refine List.filter_congr fun x hx => ?_
  cases h1 : (x.word_id == w.id) <;> cases h2 : (x.user_id == uid) <;>
    cases h3 : isDueRow now x <;> simp [h1, h2, h3]

/-- With unique `(user, word)` rows, at most one row of the user is due for
a given word. -/
theorem dueRows_length_le_one (db : DB) (uid : ℕ) (now : ℚ) (w : Word)
    (hn : (practiced_ids db uid).Nodup) :
    (db.vocabRows.filter
      (fun r => r.word_id == w.id && r.user_id == uid && isDueRow now r)).length ≤ 1 := by
  rw [dueRows_factor]
  simp only [practiced_ids] at hn
  set rows := (db.vocabRows.filter (fun r => r.user_id == uid)).filter
    (fun r => r.word_id == w.id && isDueRow now r) with hrows
  have hsub : rows.Sublist (db.vocabRows.filter (fun r => r.user_id == uid)) :=
    List.filter_sublist _
  have hnd : (rows.map (fun r => r.word_id)).Nodup :=
    (hsub.map (fun r => r.word_id)).nodup hn
  refine length_le_one_of_nodup_const w.id hnd fun r hr => ?_
  rw [hrows, List.mem_filter, Bool.and_eq_true, beq_iff_eq] at hr
  exact hr.2.1

/-- With a well-formed store the stage-1 join mentions each word id at most
once. -/
theorem nodup_dueJoin_ids (db : DB) (uid : ℕ) (lvl : String) (now : ℚ)
    (hwf : DBwf db uid) :
    ((dueJoin db uid lvl now).map (fun p => p.1.id)).Nodup := by
  rw [dueJoin, List.map_flatMap]
  have hsub : ((db.dict.filter (fun w => w.level == pyLower lvl)).flatMap
      (fun w => ((db.vocabRows.filter
        (fun r => r.word_id == w.id && r.user_id == uid && isDueRow now r)).map
          (fun r => (w, r))).map (fun p => p.1.id))).Sublist
      ((db.dict.filter (fun w => w.level == pyLower lvl)).map (fun w => w.id)) := by
    refine flatMap_sublist_map _ _ _ ?_ ?_
    · intro w
      rw [List.map_map, List.length_map]
      exact dueRows_length_le_one db uid now w hwf.2
    · intro w b hb
      rw [List.map_map, List.mem_map] at hb
      obtain ⟨r, _, he⟩ := hb
      exact he.symm
  refine hsub.nodup ?_
  exact ((List.filter_sublist _).map (fun w : Word => w.id)).nodup hwf.1

/-- With a well-formed store the sorted due list has distinct word ids. -/
theorem nodup_dueAll_ids (db : DB) (uid : ℕ) (lvl : String) (now : ℚ)
    (hwf : DBwf db uid) :
    ((dueAll db uid lvl now).map (fun w => w.id)).Nodup := by
  rw [dueAll, dueSorted, List.map_map]
  have hperm : List.Perm ((dueJoin db uid lvl now).map (fun p => (Prod.fst p).id))
      (((dueJoin db uid lvl now).mergeSort dueLe).map (fun p => (Prod.fst p).id)) :=
    ((List.mergeSort_perm _ _).symm).map _
  exact hperm.nodup (nodup_dueJoin_ids db uid lvl now hwf)

/-- The sorted new-words list has distinct word ids. -/
theorem nodup_newSorted_ids (db : DB) (uid : ℕ) (lvl : String)
    (hd : (db.dict.map (fun w => w.id)).Nodup) :
    ((newSorted db uid lvl).map (fun w => w.id)).Nodup := by
  rw [newSorted]
  have hperm : List.Perm ((db.dict.filter
      (fun w => w.level == pyLower lvl && !((practiced_ids db uid).contains w.id))).map
        (fun w => w.id))
      (((db.dict.filter
        (fun w => w.level == pyLower lvl && !((practiced_ids db uid).contains w.id))).mergeSort
          wordLe).map (fun w => w.id)) :=
    ((List.mergeSort_perm _ _).symm).map _
  exact hperm.nodup (((List.filter_sublist _).map (fun w : Word => w.id)).nodup hd)

/-- The sorted backfill pool has distinct word ids. -/
theorem nodup_poolSorted_ids (db : DB) (lvl : String) (ex : List ℕ)
    (hd : (db.dict.map (fun w => w.id)).Nodup) :
    ((poolSorted db lvl ex).map (fun w => w.id)).Nodup := by
  rw [poolSorted]
  have hperm : List.Perm ((db.dict.filter
      (fun w => w.level == pyLower lvl && !(ex.contains w.id))).map (fun w => w.id))
      (((db.dict.filter
        (fun w => w.level == pyLower lvl && !(ex.contains w.id))).mergeSort wordLe).map
          (fun w => w.id)) :=
    ((List.mergeSort_perm _ _).symm).map _
  exact hperm.nodup (((List.filter_sublist _).map (fun w : Word => w.id)).nodup hd)

/-- With unique `(user, word)` rows, the row paired with a word in the
stage-1 join is the row `rowFor` finds. -/
theorem rowFor_of_mem_dueJoin (db : DB) (uid : ℕ) (lvl : String) (now : ℚ)
    (w : Word) (r : VocabRow) (hn : (practiced_ids db uid).Nodup)
    (h : (w, r) ∈ dueJoin db uid lvl now) :
    rowFor db uid w = some r := by
  obtain ⟨-, -, hr, hwid, hu, -⟩ := (mem_dueJoin db uid lvl now w r).mp h
  have hex : (db.vocabRows.find? (fun r => r.user_id == uid && r.word_id == w.id)).isSome := by
    rw [List.find?_isSome]
    exact ⟨r, hr, by simp [hu, hwid]⟩
  obtain ⟨r', hr'⟩ := Option.isSome_iff_exists.mp hex
  have hr'mem : r' ∈ db.vocabRows := List.mem_of_find?_eq_some hr'
  have hr'p := List.find?_some hr'
  rw [Bool.and_eq_true, beq_iff_eq, beq_iff_eq] at hr'p
  rw [rowFor, hr']
  simp only [practiced_ids] at hn
  have hmem1 : r ∈ db.vocabRows.filter (fun r => r.user_id == uid) := by
    rw [List.mem_filter]
    exact ⟨hr, by simp [hu]⟩
  have hmem2 : r' ∈ db.vocabRows.filter (fun r => r.user_id == uid) := by
    rw [List.mem_filter]
    exact ⟨hr'mem, by simp [hr'p.1]⟩
  have heq := List.inj_on_of_nodup_map hn hmem2 hmem1 (by simp [hr'p.2, hwid])
  rw [heq]

/-- The key of each pair in the sorted due list is the `reviewKey` of its
word. -/
theorem reviewKey_of_mem_dueSorted (db : DB) (uid : ℕ) (lvl : String) (now : ℚ)
    (hn : (practiced_ids db uid).Nodup) :
    ∀ p ∈ dueSorted db uid lvl now, reviewKey db uid p.1 = p.2.next_review.getD 0 := by
  intro p hp
  have hj : p ∈ dueJoin db uid lvl now := (List.mergeSort_perm _ _).subset hp
  obtain ⟨w', r'⟩ := p
  rw [reviewKey, rowFor_of_mem_dueJoin db uid lvl now w' r' hn hj]
  simp

/-- The due list is ordered ascending by `next_review`. -/
theorem pairwise_dueAll (db : DB) (uid : ℕ) (lvl : String) (now : ℚ)
    (hn : (practiced_ids db uid).Nodup) :
    (dueAll db uid lvl now).Pairwise
      (fun w1 w2 => reviewKey db uid w1 ≤ reviewKey db uid w2) := by
  rw [dueAll, List.pairwise_map]
  have hsorted : (dueSorted db uid lvl now).Pairwise (fun a b => dueLe a b = true) := by
    rw [dueSorted]
    refine List.sorted_mergeSort ?_ ?_ _
    · intro a b c hab hbc
      simp only [dueLe, decide_eq_true_eq] at hab hbc ⊢
      exact le_trans hab hbc
    · intro a b
      simp only [dueLe, Bool.or_eq_true, decide_eq_true_eq]
      exact le_total _ _
  refine hsorted.imp_of_mem ?_
  intro a b ha hb hab
  rw [reviewKey_of_mem_dueSorted db uid lvl now hn a ha,
    reviewKey_of_mem_dueSorted db uid lvl now hn b hb]
  simpa [dueLe] using hab

/-- The new-words list is in lexical order. -/
theorem pairwise_newSorted (db : DB) (uid : ℕ) (lvl : String) :
    (newSorted db uid lvl).Pairwise (fun w1 w2 => w1.word ≤ w2.word) := by
  have hsorted : (newSorted db uid lvl).Pairwise (fun a b => wordLe a b = true) := by
    rw [newSorted]
    refine List.sorted_mergeSort ?_ ?_ _
    · intro a b c hab hbc
      simp only [wordLe, decide_eq_true_eq] at hab hbc ⊢
      exact le_trans hab hbc
    · intro a b
      simp only [wordLe, Bool.or_eq_true, decide_eq_true_eq]
      exact le_total _ _
  refine hsorted.imp ?_
  intro a b hab
  simpa [wordLe] using hab

/-- Stage 2 appends its fetch (possibly empty) to the batch. -/
theorem stage2_eq (db : DB) (uid : ℕ) (lvl : String) (count : ℕ) (w1 : List Word) :
    stage2 db uid lvl count w1 =
      w1 ++ (if w1.length < count then new_words db uid lvl (count - w1.length) else []) := by
  rw [stage2]
  split <;> simp

/-- Stage 3 appends its fetch (possibly empty) to the batch. -/
theorem stage3_eq (db : DB) (lvl : String) (count : ℕ) (shuffle : List Word → List Word)
    (w2 : List Word) :
    stage3 db lvl count shuffle w2 =
      w2 ++ (if w2.length < count then
        (shuffle (backfill_pool db lvl (w2.map (fun w => w.id))
          ((count - w2.length) * 2))).take (count - w2.length)
      else []) := by
  rw [stage3]
  split <;> simp

/-- Stage 1 never exceeds the quota. -/
theorem due_words_length_le (db : DB) (uid : ℕ) (lvl : String) (now : ℚ) (count : ℕ) :
    (due_words db uid lvl now count).length ≤ count := by
  rw [due_words_eq_take]
  exact le_of_eq_of_le (List.length_take _ _) inf_le_left

/-- Stage 2 never exceeds the quota. -/
theorem stage2_length_le (db : DB) (uid : ℕ) (lvl : String) (count : ℕ) (w1 : List Word)
    (h1 : w1.length ≤ count) : (stage2 db uid lvl count w1).length ≤ count := by
  rw [stage2_eq]
  split
  · rw [List.length_append, new_words_eq_take]
    have := le_of_eq_of_le (List.length_take (count - w1.length) (newSorted db uid lvl)) inf_le_left
    omega
  · simpa using h1

/-- Stage 3 never exceeds the quota. -/
theorem stage3_length_le (db : DB) (lvl : String) (count : ℕ) (shuffle : List Word → List Word)
    (w2 : List Word) (h2 : w2.length ≤ count) :
    (stage3 db lvl count shuffle w2).length ≤ count := by
  rw [stage3_eq]
  split
  · rw [List.length_append]
    have := le_of_eq_of_le (List.length_take (count - w2.length)
      (shuffle (backfill_pool db lvl (w2.map (fun w => w.id)) ((count - w2.length) * 2)))) inf_le_left
    omega
  · simpa using h2

/-- The final `LIMIT count` of the scheduler is a no-op: the staged batch
is already within the quota. -/
theorem get_practice_words_eq_stages (db : DB) (uid : ℕ) (lvl : String) (count : ℕ) (now : ℚ)
    (shuffle : List Word → List Word) :
    get_practice_words db uid lvl count now shuffle =
      stage3 db lvl count shuffle (stage2 db uid lvl count (due_words db uid lvl now count)) := by
  rw [get_practice_words_eq]
  exact List.take_of_length_le (stage3_length_le _ _ _ _ _
    (stage2_length_le _ _ _ _ _ (due_words_length_le _ _ _ _ _)))

/-- Every stage-1 word is a due word of the level. -/
theorem mem_due_words (db : DB) (uid : ℕ) (lvl : String) (now : ℚ) (count : ℕ) (w : Word)
    (h : w ∈ due_words db uid lvl now count) :
    w ∈ db.dict ∧ w.level = pyLower lvl ∧ isDue db uid now w := by
  rw [due_words_eq_take] at h
  exact (mem_dueAll db uid lvl now w).mp ((List.take_sublist _ _).subset h)

/-- Every stage-2 word is a new word of the level. -/
theorem mem_new_words (db : DB) (uid : ℕ) (lvl : String) (rem : ℕ) (w : Word)
    (h : w ∈ new_words db uid lvl rem) :
    w ∈ db.dict ∧ w.level = pyLower lvl ∧ isNew db uid w := by
  rw [new_words_eq_take] at h
  exact (mem_newSorted db uid lvl w).mp ((List.take_sublist _ _).subset h)

/-- When stage 1 underfills the quota it returned every due word. -/
theorem due_words_all_of_lt (db : DB) (uid : ℕ) (lvl : String) (now : ℚ) (count : ℕ)
    (h : (due_words db uid lvl now count).length < count) :
    due_words db uid lvl now count = dueAll db uid lvl now := by
  rw [due_words_eq_take] at h ⊢
  rw [List.length_take] at h
  refine List.take_of_length_le ?_
  omega

/-- When stage 2's fetch underfills its quota it returned every new word. -/
theorem new_words_all_of_lt (db : DB) (uid : ℕ) (lvl : String) (rem : ℕ)
    (h : (new_words db uid lvl rem).length < rem) :
    new_words db uid lvl rem = newSorted db uid lvl := by
  rw [new_words_eq_take] at h ⊢
  rw [List.length_take] at h
  refine List.take_of_length_le ?_
  omega

/-- C6: the batch decomposes as due words (ascending by `next_review`),
then never-practiced words (in lexical order), then backfill words that
are neither due nor new; a later segment is nonempty only when the earlier
segments exhausted their class; and in the concrete priority scenario
(due word D, new word N, seen-but-not-due word S, count 1) the batch is
exactly [D]. -/
theorem practice_priority (db : DB) (uid : ℕ) (lvl : String) (count : ℕ) (now : ℚ)
    (shuffle : List Word → List Word) (hwf : DBwf db uid)
    (hsh : ∀ l, List.Perm (shuffle l) l) :
    ∃ d n b : List Word,
      get_practice_words db uid lvl count now shuffle = d ++ n ++ b ∧
      (∀ w ∈ d, isDue db uid now w) ∧
      d.Pairwise (fun w1 w2 => reviewKey db uid w1 ≤ reviewKey db uid w2) ∧
      (∀ w ∈ n, isNew db uid w) ∧
      n.Pairwise (fun w1 w2 => w1.word ≤ w2.word) ∧
      (∀ w ∈ b, w ∈ db.dict ∧ w.level = pyLower lvl ∧
        ¬ isDue db uid now w ∧ ¬ isNew db uid w) ∧
      ((n ≠ [] ∨ b ≠ []) →
        ∀ w ∈ db.dict, w.level = pyLower lvl → isDue db uid now w → w ∈ d) ∧
      (b ≠ [] → ∀ w ∈ db.dict, w.level = pyLower lvl → isNew db uid w → w ∈ n) ∧
      get_practice_words dbSched 1 "a1" 1 5 id = [⟨1, "due", "a1"⟩] := by
  set d := due_words db uid lvl now count with hd
  set w2 := stage2 db uid lvl count d with hw2
  set nf := (if d.length < count then new_words db uid lvl (count - d.length) else []) with hnf
  set bf := (if w2.length < count then
      (shuffle (backfill_pool db lvl (w2.map (fun w => w.id))
        ((count - w2.length) * 2))).take (count - w2.length)
    else []) with hbf
  have hw2eq : w2 = d ++ nf := by rw [hw2, stage2_eq]
  have hdall_of : d.length < count → d = dueAll db uid lvl now := by
    intro h
    exact due_words_all_of_lt db uid lvl now count h
  have hdlt_of_w2 : w2.length < count → d.length < count := by
    intro hc
    by_contra hge
    have hnfe : nf = [] := by rw [hnf, if_neg hge]
    rw [hw2eq, hnfe, List.append_nil] at hc
    exact hge hc
  have hnfull_of : w2.length < count → nf = newSorted db uid lvl := by
    intro hc
    have hdlt := hdlt_of_w2 hc
    have hl : w2.length = d.length + (new_words db uid lvl (count - d.length)).length := by
      rw [hw2eq, hnf, if_pos hdlt, List.length_append]
    rw [hnf, if_pos hdlt]
    refine new_words_all_of_lt db uid lvl _ ?_
    omega
  have hbmem : ∀ w ∈ bf, w ∈ db.dict ∧ w.level = pyLower lvl ∧
      w.id ∉ w2.map (fun w => w.id) ∧ w2.length < count := by
    intro w hwb
    rw [hbf] at hwb
    by_cases hc : w2.length < count
    · rw [if_pos hc] at hwb
      have h1 : w ∈ shuffle (backfill_pool db lvl (w2.map (fun w => w.id))
          ((count - w2.length) * 2)) := (List.take_sublist _ _).subset hwb
      have h2 : w ∈ backfill_pool db lvl (w2.map (fun w => w.id))
          ((count - w2.length) * 2) := (hsh _).subset h1
      rw [backfill_pool_eq_take] at h2
      have h3 : w ∈ poolSorted db lvl (w2.map (fun w => w.id)) :=
        (List.take_sublist _ _).subset h2
      obtain ⟨hwd, hwl, hid⟩ := (mem_poolSorted db lvl _ w).mp h3
      exact ⟨hwd, hwl, hid, hc⟩
    · rw [if_neg hc] at hwb
      simp at hwb
  refine ⟨d, nf, bf, ?_, ?_, ?_, ?_, ?_, ?_, ?_, ?_, ?_⟩
  · rw [get_practice_words_eq_stages, ← hw2, stage3_eq, ← hbf, hw2eq, List.append_assoc]
  · intro w hw
    exact (mem_due_words db uid lvl now count w hw).2.2
  · rw [hd, due_words_eq_take]
    exact List.Pairwise.sublist (List.take_sublist _ _) (pairwise_dueAll db uid lvl now hwf.2)
  · intro w hw
    rw [hnf] at hw
    split at hw
    · exact (mem_new_words db uid lvl _ w hw).2.2
    · simp at hw
  · rw [hnf]
    split
    · rw [new_words_eq_take]
      exact List.Pairwise.sublist (List.take_sublist _ _) (pairwise_newSorted db uid lvl)
    · exact List.Pairwise.nil
  · intro w hwb
    obtain ⟨hwd, hwl, hid, hc⟩ := hbmem w hwb
    refine ⟨hwd, hwl, ?_, ?_⟩
    · intro hdue
      have hwd' : w ∈ d := by
        rw [hdall_of (hdlt_of_w2 hc)]
        exact (mem_dueAll db uid lvl now w).mpr ⟨hwd, hwl, hdue⟩
      refine hid ?_
      rw [List.mem_map]
      exact ⟨w, by rw [hw2eq]; exact List.mem_append_left _ hwd', rfl⟩
    · intro hnew
      have hwn : w ∈ nf := by
        rw [hnfull_of hc]
        exact (mem_newSorted db uid lvl w).mpr ⟨hwd, hwl, hnew⟩
      refine hid ?_
      rw [List.mem_map]
      exact ⟨w, by rw [hw2eq]; exact List.mem_append_right _ hwn, rfl⟩
  · intro hne w hwdict hwlvl hwdue
    have hdlt : d.length < count := by
      rcases hne with h | h
      · by_contra hge
        rw [hnf, if_neg hge] at h
        exact h rfl
      · refine hdlt_of_w2 ?_
        by_contra hge
        rw [hbf, if_neg hge] at h
        exact h rfl
    rw [hdall_of hdlt]
    exact (mem_dueAll db uid lvl now w).mpr ⟨hwdict, hwlvl, hwdue⟩
  · intro hne w hwdict hwlvl hwnew
    have hc : w2.length < count := by
      by_contra hge
      rw [hbf, if_neg hge] at hne
      exact hne rfl
    rw [hnfull_of hc]
    exact (mem_newSorted db uid lvl w).mpr ⟨hwdict, hwlvl, hwnew⟩
  · have hlo : pyLower "a1" = "a1" := rfl
    have hdue0 : isDueRow 5 ⟨1, 1, false, 1, 1, some 0, some 0, 1, 5/2⟩ = true := by
      norm_num [isDueRow]
    have hdue100 : isDueRow 5 ⟨1, 3, false, 1, 1, some 0, some 100, 1, 5/2⟩ = false := by
      norm_num [isDueRow]
    simp [get_practice_words, due_words, dueJoin, dbSched, hlo, hdue0, hdue100]

/-- Witness for `practice_priority` on the concrete priority scenario. -/
theorem practice_priority_witness :
    ∃ d n b : List Word,
      get_practice_words dbSched 1 "a1" 1 5 id = d ++ n ++ b ∧
      (∀ w ∈ d, isDue dbSched 1 5 w) ∧
      d.Pairwise (fun w1 w2 => reviewKey dbSched 1 w1 ≤ reviewKey dbSched 1 w2) ∧
      (∀ w ∈ n, isNew dbSched 1 w) ∧
      n.Pairwise (fun w1 w2 => w1.word ≤ w2.word) ∧
      (∀ w ∈ b, w ∈ dbSched.dict ∧ w.level = pyLower "a1" ∧
        ¬ isDue dbSched 1 5 w ∧ ¬ isNew dbSched 1 w) ∧
      ((n ≠ [] ∨ b ≠ []) →
        ∀ w ∈ dbSched.dict, w.level = pyLower "a1" → isDue dbSched 1 5 w → w ∈ d) ∧
      (b ≠ [] → ∀ w ∈ dbSched.dict, w.level = pyLower "a1" → isNew dbSched 1 w → w ∈ n) ∧
      get_practice_words dbSched 1 "a1" 1 5 id = [⟨1, "due", "a1"⟩] := by
  refine practice_priority dbSched 1 "a1" 1 5 id ⟨by decide, by decide⟩ ?_
  exact fun l => List.Perm.refl l

/-- Every word taken from the shuffled backfill pool is a word of the level
whose id was not yet selected. -/
theorem mem_backfill_take (db : DB) (lvl : String) (ex : List ℕ) (lim rem : ℕ)
    (shuffle : List Word → List Word) (hsh : ∀ l, List.Perm (shuffle l) l) (w : Word)
    (h : w ∈ (shuffle (backfill_pool db lvl ex lim)).take rem) :
    w ∈ db.dict ∧ w.level = pyLower lvl ∧ w.id ∉ ex := by
  have h1 := (List.take_sublist _ _).subset h
  have h2 := (hsh _).subset h1
  rw [backfill_pool_eq_take] at h2
  exact (mem_poolSorted db lvl ex w).mp ((List.take_sublist _ _).subset h2)

/-- A word of the dictionary at the level is a member of the level filter. -/
theorem mem_level_filter (db : DB) (lvl : String) (w : Word) :
    w ∈ db.dict.filter (fun w => w.level == pyLower lvl) ↔
      (w ∈ db.dict ∧ w.level = pyLower lvl) := by
  rw [List.mem_filter]
  simp

/-- The level filter has distinct ids. -/
theorem nodup_level_filter_ids (db : DB) (lvl : String)
    (hd : (db.dict.map (fun w => w.id)).Nodup) :
    ((db.dict.filter (fun w => w.level == pyLower lvl)).map (fun w => w.id)).Nodup :=
  ((List.filter_sublist _).map (fun w : Word => w.id)).nodup hd

/-- C7: the batch has pairwise-distinct word ids, its length is exactly
`min count (number of words at the level)` -- so at most `count`, empty
when the level is empty, and everything available (without repetition or
error) when the level holds fewer than `count` words. -/
theorem practice_batch_shape (db : DB) (uid : ℕ) (lvl : String) (count : ℕ) (now : ℚ)
    (shuffle : List Word → List Word) (hwf : DBwf db uid)
    (hsh : ∀ l, List.Perm (shuffle l) l) :
    ((get_practice_words db uid lvl count now shuffle).map (fun w => w.id)).Nodup ∧
    (get_practice_words db uid lvl count now shuffle).length =
      min count (total_words db lvl) ∧
    (total_words db lvl = 0 → get_practice_words db uid lvl count now shuffle = []) ∧
    (get_practice_words db uid lvl count now shuffle).length ≤ count := by
  set L := db.dict.filter (fun w => w.level == pyLower lvl) with hL
  have htw : total_words db lvl = L.length := rfl
  set d := due_words db uid lvl now count with hd
  set w2 := stage2 db uid lvl count d with hw2
  set nf := (if d.length < count then new_words db uid lvl (count - d.length) else []) with hnf
  set bf := (if w2.length < count then
      (shuffle (backfill_pool db lvl (w2.map (fun w => w.id))
        ((count - w2.length) * 2))).take (count - w2.length)
    else []) with hbf
  have hw2eq : w2 = d ++ nf := by rw [hw2, stage2_eq]
  have hw3eq : get_practice_words db uid lvl count now shuffle = w2 ++ bf := by
    rw [get_practice_words_eq_stages, ← hw2, stage3_eq, ← hbf]
  have hdle : d.length ≤ count := due_words_length_le db uid lvl now count
  have hw2le : w2.length ≤ count := stage2_length_le db uid lvl count d hdle
  have hbfmem : ∀ w ∈ bf, w ∈ db.dict ∧ w.level = pyLower lvl ∧
      w.id ∉ w2.map (fun w => w.id) := by
    intro w hwb
    rw [hbf] at hwb
    by_cases hc : w2.length < count
    · rw [if_pos hc] at hwb
      exact mem_backfill_take db lvl _ _ _ shuffle hsh w hwb
    · rw [if_neg hc] at hwb
      simp at hwb
  have hnfmem : ∀ w ∈ nf, w ∈ db.dict ∧ w.level = pyLower lvl ∧ isNew db uid w := by
    intro w hw
    rw [hnf] at hw
    split at hw
    · exact mem_new_words db uid lvl _ w hw
    · simp at hw
  -- distinct ids of the three segments
  have hnd_d : (d.map (fun w => w.id)).Nodup := by
    rw [hd, due_words_eq_take]
    exact ((List.take_sublist _ _).map _).nodup (nodup_dueAll_ids db uid lvl now hwf)
  have hnd_nf : (nf.map (fun w => w.id)).Nodup := by
    rw [hnf]
    split
    · rw [new_words_eq_take]
      exact ((List.take_sublist _ _).map _).nodup (nodup_newSorted_ids db uid lvl hwf.1)
    · simp
  have hnd_bf : (bf.map (fun w => w.id)).Nodup := by
    rw [hbf]
    split
    · have h1 := nodup_poolSorted_ids db lvl (w2.map (fun w => w.id)) hwf.1
      have h2 : ((backfill_pool db lvl (w2.map (fun w => w.id))
          ((count - w2.length) * 2)).map (fun w => w.id)).Nodup := by
        rw [backfill_pool_eq_take]
        exact ((List.take_sublist _ _).map _).nodup h1
      have h3 : ((shuffle (backfill_pool db lvl (w2.map (fun w => w.id))
          ((count - w2.length) * 2))).map (fun w => w.id)).Nodup :=
        (((hsh _).map _).symm).nodup h2
      exact ((List.take_sublist _ _).map _).nodup h3
    · simp
  have hdisj_dn : (d.map (fun w => w.id)).Disjoint (nf.map (fun w => w.id)) := by
    intro x hx1 hx2
    obtain ⟨wd, hwd, hwdid⟩ := List.mem_map.mp hx1
    obtain ⟨wn, hwn, hwnid⟩ := List.mem_map.mp hx2
    obtain ⟨-, -, r, hr, hu, hwid, -⟩ := mem_due_words db uid lvl now count wd hwd
    have hnew := (hnfmem wn hwn).2.2
    exact hnew r hr hu (by rw [hwid, hwdid, hwnid])
  have hnd_w2 : (w2.map (fun w => w.id)).Nodup := by
    rw [hw2eq, List.map_append, List.nodup_append]
    exact ⟨hnd_d, hnd_nf, hdisj_dn⟩
  have hdisj_2b : (w2.map (fun w => w.id)).Disjoint (bf.map (fun w => w.id)) := by
    intro x hx1 hx2
    obtain ⟨wb, hwb, hwbid⟩ := List.mem_map.mp hx2
    exact (hbfmem wb hwb).2.2 (by rw [hwbid]; exact hx1)
  have hnd3 : ((w2 ++ bf).map (fun w => w.id)).Nodup := by
    rw [List.map_append, List.nodup_append]
    exact ⟨hnd_w2, hnd_bf, hdisj_2b⟩
  -- the batch draws from the level
  have hsubL : ∀ x ∈ (w2 ++ bf).map (fun w => w.id), x ∈ L.map (fun w => w.id) := by
    intro x hx
    obtain ⟨w, hw, hwid⟩ := List.mem_map.mp hx
    refine List.mem_map.mpr ⟨w, ?_, hwid⟩
    rw [hL, mem_level_filter]
    rcases List.mem_append.mp hw with h | h
    · rw [hw2eq] at h
      rcases List.mem_append.mp h with h | h
      · obtain ⟨h1, h2, -⟩ := mem_due_words db uid lvl now count w h
        exact ⟨h1, h2⟩
      · obtain ⟨h1, h2, -⟩ := hnfmem w h
        exact ⟨h1, h2⟩
    · obtain ⟨h1, h2, -⟩ := hbfmem w h
      exact ⟨h1, h2⟩
  have hndL : (L.map (fun w => w.id)).Nodup := nodup_level_filter_ids db lvl hwf.1
  have hleL : (w2 ++ bf).length ≤ L.length := by
    have := nodup_subset_length_le hnd3 hsubL
    simpa using this
  have h3le : (w2 ++ bf).length ≤ count := by
    rw [← hw3eq, get_practice_words_eq_stages, ← hw2, stage3_eq, ← hbf, ← stage3_eq]
    exact stage3_length_le db lvl count shuffle w2 hw2le
  -- length is exactly the min
  have hlen : (w2 ++ bf).length = min count L.length := by
    rcases eq_or_lt_of_le h3le with heq | hlt
    · rw [heq, Nat.min_eq_left (le_trans (le_of_eq heq.symm) hleL)]
    · have hc : w2.length < count := by
        by_contra hge
        have hbfe : bf = [] := by rw [hbf, if_neg hge]
        rw [hbfe, List.append_nil] at hlt
        exact hge hlt
      have hbflt : bf.length < count - w2.length := by
        rw [List.length_append] at hlt
        omega
      have hbfeq : bf = shuffle (backfill_pool db lvl (w2.map (fun w => w.id))
          ((count - w2.length) * 2)) := by
        rw [hbf, if_pos hc]
        refine List.take_of_length_le ?_
        have hl : bf.length = min (count - w2.length)
            ((shuffle (backfill_pool db lvl (w2.map (fun w => w.id))
              ((count - w2.length) * 2))).length) := by
          rw [hbf, if_pos hc, List.length_take]
        omega
      have hpoollt : (backfill_pool db lvl (w2.map (fun w => w.id))
          ((count - w2.length) * 2)).length < count - w2.length := by
        have := ((hsh (backfill_pool db lvl (w2.map (fun w => w.id))
          ((count - w2.length) * 2)))).length_eq
        rw [hbfeq] at hbflt
        omega
      have hpooleq : backfill_pool db lvl (w2.map (fun w => w.id))
          ((count - w2.length) * 2) = poolSorted db lvl (w2.map (fun w => w.id)) := by
        rw [backfill_pool_eq_take]
        refine List.take_of_length_le ?_
        have hl := List.length_take ((count - w2.length) * 2)
          (poolSorted db lvl (w2.map (fun w => w.id)))
        rw [backfill_pool_eq_take] at hpoollt
        rw [hl] at hpoollt
        omega
      have hLsub : ∀ x ∈ L.map (fun w => w.id), x ∈ (w2 ++ bf).map (fun w => w.id) := by
        intro x hx
        obtain ⟨w, hwL, hwid⟩ := List.mem_map.mp hx
        obtain ⟨hwd, hwl⟩ := (mem_level_filter db lvl w).mp (hL ▸ hwL)
        by_cases hxw2 : x ∈ w2.map (fun w => w.id)
        · rw [List.map_append]
          exact List.mem_append_left _ hxw2
        · have hwpool : w ∈ poolSorted db lvl (w2.map (fun w => w.id)) :=
            (mem_poolSorted db lvl _ w).mpr ⟨hwd, hwl, by rw [hwid]; exact hxw2⟩
          have hwbf : w ∈ bf := by
            rw [hbfeq]
            exact ((hsh _).symm).subset (by rw [hpooleq]; exact hwpool)
          rw [List.map_append]
          exact List.mem_append_right _ (List.mem_map.mpr ⟨w, hwbf, hwid⟩)
      have hgeL : L.length ≤ (w2 ++ bf).length := by
        have := nodup_subset_length_le hndL hLsub
        simpa using this
      have heqL : (w2 ++ bf).length = L.length := le_antisymm hleL hgeL
      rw [heqL, Nat.min_eq_right (by omega)]
  refine ⟨?_, ?_, ?_, ?_⟩
  · rw [hw3eq]
    exact hnd3
  · rw [hw3eq, hlen, htw]
  · intro h0
    rw [htw] at h0
    have : (w2 ++ bf).length = 0 := by rw [hlen, h0]; simp
    rw [hw3eq]
    exact List.length_eq_zero.mp this
  · rw [hw3eq]
    exact h3le

/-- Witness for `practice_batch_shape` on the concrete scenario store. -/
theorem practice_batch_shape_witness :
    ((get_practice_words dbSched 1 "a1" 5 0 id).map (fun w => w.id)).Nodup ∧
    (get_practice_words dbSched 1 "a1" 5 0 id).length = min 5 (total_words dbSched "a1") ∧
    (total_words dbSched "a1" = 0 → get_practice_words dbSched 1 "a1" 5 0 id = []) ∧
    (get_practice_words dbSched 1 "a1" 5 0 id).length ≤ 5 := by
  exact practice_batch_shape dbSched 1 "a1" 5 0 id ⟨by decide, by decide⟩
    (fun l => List.Perm.refl l)
